import Mathlib

/-!
Verification of the cant-stop-1d solver.

The development shallowly embeds the two source files of the repository:

* `expr.rs` — an expression algebra (`Expr`) over one implicit free
  variable, with evaluation, addition, scalar multiplication/division,
  binary minimum, and fixed-point extraction by bisection.
* `main.rs` — a memoized mutually recursive position solver (`dfsA`,
  `dfsB`) over board positions, with entry points `solve` and `strategy`.

`f64` arithmetic is modelled by exact rational arithmetic (`ℚ`).  The
unbounded `while` loops of `bisect` and the mutual recursion are embedded
with an explicit fuel parameter; the result type `Res` distinguishes a
normal result (`ok`), a failed `assert!`/`unwrap` (`assertFail`),
exhaustion of the recursion fuel (`outRec`) and exhaustion of the
bisection fuel (`outBis`).
-/

namespace CantStop

/-- The expression algebra of `expr.rs`: an affine part plus a list of
nonlinear children, or a binary minimum. -/
inductive Expr : Type where
  | Sum (one : ℚ) (zero : ℚ) (nonlinear : List Expr)
  | Min (a : Expr) (b : Expr)

namespace Expr

/-- `Expr::constant`. -/
def constant (a : ℚ) : Expr := .Sum 0 a []

/-- `Expr::self_consistent`. -/
def self_consistent (x : ℚ) : Expr := .Sum x 0 []

/-- `Expr::min`. -/
def min (e other : Expr) : Expr := .Min e other

mutual

/-- `Expr::eval`: `one * x + zero + Σ child.eval x` for a `Sum`, and the
smaller branch for a `Min` (the source returns `a` when `a <= b`). -/
def eval : Expr → ℚ → ℚ
  | .Sum one zero nonlinear, x => one * x + zero + evalList nonlinear x
  | .Min a b, x =>
      let va := eval a x
      let vb := eval b x
      if va ≤ vb then va else vb

/-- Sum of the evaluations of a list of children. -/
def evalList : List Expr → ℚ → ℚ
  | [], _ => 0
  | e :: es, x => eval e x + evalList es x

end

/-- `impl Add<Expr> for Expr`: merge two `Sum`s fieldwise (concatenating
child lists), push a `Min` operand into the other's child list, or wrap
two `Min`s in a fresh zero `Sum`. -/
def add : Expr → Expr → Expr
  | .Sum one zero nl, .Sum r_one r_zero r_nl => .Sum (one + r_one) (zero + r_zero) (nl ++ r_nl)
  | .Sum one zero nl, .Min a b => .Sum one zero (nl ++ [.Min a b])
  | .Min a b, .Sum one zero nl => .Sum one zero (nl ++ [.Min a b])
  | .Min a b, .Min a2 b2 => .Sum 0 0 [.Min a b, .Min a2 b2]

mutual

/-- `impl Mul<f64> for Expr`: map the scalar over every field of a `Sum`
and into both branches of a `Min`. -/
def mulE : Expr → ℚ → Expr
  | .Sum one zero nl, s => .Sum (one * s) (zero * s) (mulList nl s)
  | .Min a b, s => .Min (mulE a s) (mulE b s)

/-- Scalar multiplication mapped over a list of children. -/
def mulList : List Expr → ℚ → List Expr
  | [], _ => []
  | e :: es, s => mulE e s :: mulList es s

end

mutual

/-- `impl Div<f64> for Expr`: divide every field of a `Sum` and both
branches of a `Min` by the scalar. -/
def divE : Expr → ℚ → Expr
  | .Sum one zero nl, s => .Sum (one / s) (zero / s) (divList nl s)
  | .Min a b, s => .Min (divE a s) (divE b s)

/-- Scalar division mapped over a list of children. -/
def divList : List Expr → ℚ → List Expr
  | [], _ => []
  | e :: es, s => divE e s :: divList es s

end

/-- The `1e-12` loop tolerance of `Expr::bisect`. -/
def tol : ℚ := 1 / 1000000000000

/-- First bracketing loop of `Expr::bisect`: halve `lo` while
`eval lo < lo`.  Fuel bounds the number of halvings. -/
def bracketLo (e : Expr) (fuel : ℕ) (lo : ℚ) : Option ℚ :=
  if eval e lo < lo then
    if _hf : fuel = 0 then none else bracketLo e (fuel - 1) (lo / 2)
  else some lo
termination_by fuel
decreasing_by omega

/-- Second bracketing loop of `Expr::bisect`: double `hi` while
`hi < eval hi`.  Fuel bounds the number of doublings. -/
def bracketHi (e : Expr) (fuel : ℕ) (hi : ℚ) : Option ℚ :=
  if hi < eval e hi then
    if _hf : fuel = 0 then none else bracketHi e (fuel - 1) (hi * 2)
  else some hi
termination_by fuel
decreasing_by omega

/-- Binary-search loop of `Expr::bisect`: while `hi - lo > 1e-12`, move
`hi` down to the midpoint when `eval mid < mid`, otherwise move `lo` up.
Returns the final pair `(lo, hi)`. -/
def binSearch (e : Expr) (fuel : ℕ) (lo hi : ℚ) : Option (ℚ × ℚ) :=
  if tol < hi - lo then
    if _hf : fuel = 0 then none
    else
      let mid := (hi + lo) / 2
      if eval e mid < mid then binSearch e (fuel - 1) lo mid
      else binSearch e (fuel - 1) mid hi
  else some (lo, hi)
termination_by fuel
decreasing_by all_goals omega

/-- `Expr::bisect`: bracket from `lo = 0.5` and `hi = 1.0`, then binary
search; the source returns the final `hi`. -/
def bisect (e : Expr) (fuel : ℕ) : Option ℚ :=
  match bracketLo e fuel (1 / 2) with
  | none => none
  | some lo =>
    match bracketHi e fuel 1 with
    | none => none
    | some hi =>
      match binSearch e fuel lo hi with
      | none => none
      | some p => some p.2

end Expr

/-- Outcome of a solver computation: a normal value, a failed
`assert!`/`unwrap` (a panic in the source), exhaustion of the fuel
bounding the mutual recursion, or exhaustion of the fuel bounding the
bisection loops. -/
inductive Res (α : Type) : Type where
  | ok (a : α)
  | assertFail
  | outRec
  | outBis
deriving DecidableEq

/-- The configuration `Opts { dice, goal }` of `main.rs`. -/
structure Opts : Type where
  dice : ℕ
  goal : ℕ

/-- `Solver::dice_n`: the die face count as a scalar. -/
def Opts.diceN (o : Opts) : ℚ := (o.dice : ℚ)

/-- The modulus of the source's `u32` position arithmetic. -/
def u32size : ℕ := 4294967296

/-- The game state of `main.rs`: original position, current position and
the pending die outcome.  Positions are `u32` in the source; additions on
them wrap modulo `2^32` in release builds (debug builds abort), and the
embedding uses the wrapping semantics. -/
structure State : Type where
  original_pos : ℕ
  pos : ℕ
  dice : Option ℕ
deriving DecidableEq

/-- `State::new`. -/
def State.new (original_pos : ℕ) : State :=
  { original_pos := original_pos, pos := original_pos, dice := none }

/-- `State::dice`: roll die face `d` from a resting state.  The `u32`
addition `original_pos + d` wraps modulo `2^32`. -/
def State.withDice (s : State) (d : ℕ) : State :=
  { original_pos := s.original_pos, pos := (s.original_pos + d) % u32size,
    dice := some d }

/-- `State::go_success`: advance by the pending die face again.  The
source `unwrap`s the pending face; a missing face is a panic, modelled by
`none`.  The `u32` addition `pos + d` wraps modulo `2^32`. -/
def State.go_success (s : State) : Option State :=
  match s.dice with
  | none => none
  | some d =>
    some { original_pos := s.original_pos, pos := (s.pos + d) % u32size, dice := s.dice }

/-- `State::stop`: bank the current position. -/
def State.stop (s : State) : State :=
  { original_pos := s.pos, pos := s.pos, dice := none }

/-- The memo table of `Solver`, keyed by board position.  `HashMap`
lookup and insert are modelled by an association list consulted
front-first. -/
abbrev Memo : Type := List (ℕ × ℚ)

/-- The `for dice in 1..=self.opts.dice` loop body of `Solver::dfs_a`:
starting from accumulator `s`, process `cnt` die faces beginning at `d`,
adding `f`-result `/ dice_n` each time and threading the memo. -/
def loopA (o : Opts) (f : Memo → State → Res (Expr × Memo)) (st : State)
    (d cnt : ℕ) (s : Expr) (m : Memo) : Res (Expr × Memo) :=
  if _hc : cnt = 0 then .ok (s, m)
  else
    match f m (st.withDice d) with
    | .ok (e, m₁) => loopA o f st (d + 1) (cnt - 1) (s.add (e.divE o.diceN)) m₁
    | .assertFail => .assertFail
    | .outRec => .outRec
    | .outBis => .outBis
termination_by cnt
decreasing_by omega

mutual

/-- `Solver::dfs_a`: assert no pending die, return `0` at or past the
goal, consult the memo, otherwise accumulate `constant 1` plus
`dfs_b(state.dice(d)) / dice_n` over all die faces, solve by bisection
and memoize. -/
def dfsA (o : Opts) (fuel : ℕ) (m : Memo) (st : State) : Res (ℚ × Memo) :=
  match st.dice with
  | some _ => .assertFail
  | none =>
    if o.goal ≤ st.pos then .ok (0, m)
    else
      match List.lookup st.pos m with
      | some r => .ok (r, m)
      | none =>
        if _hf : fuel = 0 then .outRec
        else
          match loopA o (fun mm ss => dfsB o (fuel - 1) mm ss) st 1 o.dice
              (Expr.constant 1) m with
          | .ok (s, m₁) =>
            match Expr.bisect s (fuel - 1) with
            | none => .outBis
            | some r => .ok (r, (st.pos, r) :: m₁)
          | .assertFail => .assertFail
          | .outRec => .outRec
          | .outBis => .outBis
termination_by fuel
decreasing_by omega

/-- `Solver::dfs_b`: assert a pending die face, return `constant 0` at or
past the goal, otherwise combine the banking value, the further-success
equation and the self-referential failure term, and take the minimum with
stopping. -/
def dfsB (o : Opts) (fuel : ℕ) (m : Memo) (st : State) : Res (Expr × Memo) :=
  match st.dice with
  | none => .assertFail
  | some _ =>
    if o.goal ≤ st.pos then .ok (.constant 0, m)
    else
      if _hf : fuel = 0 then .outRec
      else
        match dfsA o (fuel - 1) m st.stop with
        | .ok (stopV, m₁) =>
          match st.go_success with
          | none => .assertFail
          | some gs =>
            match dfsB o (fuel - 1) m₁ gs with
            | .ok (goS, m₂) =>
              let go_fail := (Expr.self_consistent 1).add (Expr.constant 1)
              let go := (goS.divE o.diceN).add (go_fail.mulE ((o.diceN - 1) / o.diceN))
              .ok (go.min (.constant stopV), m₂)
            | .assertFail => .assertFail
            | .outRec => .outRec
            | .outBis => .outBis
        | .assertFail => .assertFail
        | .outRec => .outRec
        | .outBis => .outBis
termination_by fuel
decreasing_by all_goals omega

end

/-- `Solver::solve`: the resting expected-turns value from position `n`. -/
def solve (o : Opts) (fuel : ℕ) (n : ℕ) : Res ℚ :=
  match dfsA o fuel [] (State.new n) with
  | .ok p => .ok p.1
  | .assertFail => .assertFail
  | .outRec => .outRec
  | .outBis => .outBis

/-- `Solver::strategy`: the `(total, stop)` pair for position `n` and die
face `d`. -/
def strategy (o : Opts) (fuel : ℕ) (n d : ℕ) : Res (ℚ × ℚ) :=
  let st := (State.new n).withDice d
  match dfsA o fuel [] st.stop with
  | .ok (stopS, m₁) =>
    match dfsB o fuel m₁ st with
    | .ok (e, _) =>
      match e.bisect fuel with
      | none => .outBis
      | some total => .ok (total, stopS)
    | .assertFail => .assertFail
    | .outRec => .outRec
    | .outBis => .outBis
  | .assertFail => .assertFail
  | .outRec => .outRec
  | .outBis => .outBis

/-- A steep affine expression, `self_consistent (-1e9) + constant 1`:
its slope is far beyond the resolution that the fixed `1e-12` bracket
width can translate into a `1e-6` residual bound. -/
def steepExpr : Expr := .Sum (-1000000000) 1 []

/-- The configuration `dice = 2, goal = 2`, used for concrete runs. -/
def opts22 : Opts := { dice := 2, goal := 2 }

/-- A configuration whose positions overflow `u32`: `D = 2^31` die faces
and goal `2^32 - 1`. -/
def optsWrap : Opts := { dice := 2147483648, goal := 4294967295 }

namespace Expr

theorem evalList_append (l1 l2 : List Expr) (x : ℚ) :
    evalList (l1 ++ l2) x = evalList l1 x + evalList l2 x := by
  induction l1 with
  | nil => simp [evalList]
  | cons e es ih => simp [evalList, ih]; ring

theorem eval_min_def (a b : Expr) (x : ℚ) :
    eval (.Min a b) x = Min.min (eval a x) (eval b x) := by
  rw [eval, min_def]

theorem eval_add (e1 e2 : Expr) (x : ℚ) :
    eval (add e1 e2) x = eval e1 x + eval e2 x := by
  cases e1 with
  | Sum one zero nl =>
    cases e2 with
    | Sum r_one r_zero r_nl =>
      simp only [add, eval, evalList_append]; ring
    | Min a b =>
      simp only [add, eval, evalList_append, evalList]; ring
  | Min a b =>
    cases e2 with
    | Sum r_one r_zero r_nl =>
      simp only [add, eval, evalList_append, evalList]; ring
    | Min a2 b2 =>
      simp only [add, eval, evalList]; ring

mutual

theorem eval_mulE : ∀ (e : Expr) (s x : ℚ), 0 ≤ s → eval (mulE e s) x = s * eval e x
  | .Sum one zero nl, s, x, hs => by
    simp only [mulE, eval, evalList_mulList nl s x hs]; ring
  | .Min a b, s, x, hs => by
    rw [mulE, eval_min_def, eval_min_def, eval_mulE a s x hs, eval_mulE b s x hs,
      mul_min_of_nonneg _ _ hs]

theorem evalList_mulList : ∀ (l : List Expr) (s x : ℚ), 0 ≤ s →
    evalList (mulList l s) x = s * evalList l x
  | [], s, x, _ => by simp [mulList, evalList]
  | e :: es, s, x, hs => by
    simp only [mulList, evalList, eval_mulE e s x hs, evalList_mulList es s x hs]; ring

end

mutual

theorem eval_divE : ∀ (e : Expr) (s x : ℚ), 0 ≤ s → eval (divE e s) x = eval e x / s
  | .Sum one zero nl, s, x, hs => by
    simp only [divE, eval, evalList_divList nl s x hs]; ring
  | .Min a b, s, x, hs => by
    rw [divE, eval_min_def, eval_min_def, eval_divE a s x hs, eval_divE b s x hs,
      min_div_div_right hs]

theorem evalList_divList : ∀ (l : List Expr) (s x : ℚ), 0 ≤ s →
    evalList (divList l s) x = evalList l x / s
  | [], s, x, _ => by simp [divList, evalList]
  | e :: es, s, x, hs => by
    simp only [divList, evalList, eval_divE e s x hs, evalList_divList es s x hs]; ring

end

theorem eval_constant (c x : ℚ) : eval (constant c) x = c := by
  simp [constant, eval, evalList]

theorem eval_self_consistent (k x : ℚ) : eval (self_consistent k) x = k * x := by
  simp [self_consistent, eval, evalList]

theorem bracketLo_spec (e : Expr) :
    ∀ fuel lo lo', bracketLo e fuel lo = some lo' → 0 < lo →
      lo' ≤ eval e lo' ∧ lo' ≤ lo ∧ 0 < lo' := by
  intro fuel
  induction fuel using Nat.strong_induction_on with
  | _ fuel ih =>
    intro lo lo' h hpos
    rw [bracketLo] at h
    by_cases hc : eval e lo < lo
    · rw [if_pos hc] at h
      by_cases hf : fuel = 0
      · simp [hf] at h
      · rw [dif_neg hf] at h
        obtain ⟨h1, h2, h3⟩ := ih (fuel - 1) (by omega) (lo / 2) lo' h (by linarith)
        exact ⟨h1, by linarith, h3⟩
    · rw [if_neg hc] at h
      obtain rfl : lo = lo' := by simpa using h
      exact ⟨le_of_not_lt hc, le_refl lo, hpos⟩

theorem bracketHi_spec (e : Expr) :
    ∀ fuel hi hi', bracketHi e fuel hi = some hi' → 0 < hi →
      eval e hi' ≤ hi' ∧ hi ≤ hi' := by
  intro fuel
  induction fuel using Nat.strong_induction_on with
  | _ fuel ih =>
    intro hi hi' h hpos
    rw [bracketHi] at h
    by_cases hc : hi < eval e hi
    · rw [if_pos hc] at h
      by_cases hf : fuel = 0
      · simp [hf] at h
      · rw [dif_neg hf] at h
        obtain ⟨h1, h2⟩ := ih (fuel - 1) (by omega) (hi * 2) hi' h (by linarith)
        exact ⟨h1, by linarith⟩
    · rw [if_neg hc] at h
      obtain rfl : hi = hi' := by simpa using h
      exact ⟨le_of_not_lt hc, le_refl hi⟩

theorem binSearch_spec (e : Expr) :
    ∀ fuel lo hi lo' hi', binSearch e fuel lo hi = some (lo', hi') →
      lo ≤ eval e lo → eval e hi ≤ hi → lo ≤ hi →
      lo ≤ lo' ∧ hi' ≤ hi ∧ lo' ≤ hi' ∧
        lo' ≤ eval e lo' ∧ eval e hi' ≤ hi' ∧ hi' - lo' ≤ tol := by
  intro fuel
  induction fuel using Nat.strong_induction_on with
  | _ fuel ih =>
    intro lo hi lo' hi' h hlo hhi hord
    rw [binSearch] at h
    by_cases hgap : tol < hi - lo
    · rw [if_pos hgap] at h
      by_cases hf : fuel = 0
      · simp [hf] at h
      · rw [dif_neg hf] at h
        simp only [] at h
        by_cases hmid : eval e ((hi + lo) / 2) < (hi + lo) / 2
        · rw [if_pos hmid] at h
          obtain ⟨h1, h2, h3, h4, h5, h6⟩ :=
            ih (fuel - 1) (by omega) lo ((hi + lo) / 2) lo' hi' h hlo
              (le_of_lt hmid) (by linarith)
          exact ⟨h1, by linarith, h3, h4, h5, h6⟩
        · rw [if_neg hmid] at h
          obtain ⟨h1, h2, h3, h4, h5, h6⟩ :=
            ih (fuel - 1) (by omega) ((hi + lo) / 2) hi lo' hi' h
              (le_of_not_lt hmid) hhi (by linarith)
          exact ⟨by linarith, h2, h3, h4, h5, h6⟩
    · rw [if_neg hgap] at h
      obtain ⟨rfl, rfl⟩ : lo = lo' ∧ hi = hi' := by
        constructor <;> [skip; skip] <;> simp_all
      exact ⟨le_refl _, le_refl _, hord, hlo, hhi, by linarith [not_lt.1 hgap]⟩

theorem bisect_pipeline (e : Expr) (fuel : ℕ) (r : ℚ) (h : bisect e fuel = some r) :
    ∃ lo1 hi1 lo2, bracketLo e fuel (1 / 2) = some lo1 ∧
      bracketHi e fuel 1 = some hi1 ∧ binSearch e fuel lo1 hi1 = some (lo2, r) := by
  rw [bisect] at h
  split at h
  · exact absurd h (by simp)
  next lo1 h1 =>
    split at h
    · exact absurd h (by simp)
    next hi1 h2 =>
      split at h
      · exact absurd h (by simp)
      next p h3 =>
        obtain ⟨a, b⟩ := p
        simp only [Option.some.injEq] at h
        subst h
        exact ⟨lo1, hi1, a, h1, h2, h3⟩

end Expr

theorem eval_steepExpr (x : ℚ) : Expr.eval steepExpr x = 1 - 1000000000 * x := by
  simp [steepExpr, Expr.eval, Expr.evalList]; ring

/-- C5: in `bisect`, whenever the two bracketing loops terminate (from the
starting points `0.5` and `1.0`), the invariant `eval e lo ≥ lo` and
`eval e hi ≤ hi` holds on entry to the binary-search loop, is preserved by
every iteration of the loop, and therefore holds for the final `lo` and
`hi`. -/
theorem bisect_invariant_holds (e : Expr) (fuel : ℕ) (lo1 hi1 lo2 hi2 : ℚ)
    (hl : Expr.bracketLo e fuel (1 / 2) = some lo1)
    (hh : Expr.bracketHi e fuel 1 = some hi1)
    (hb : Expr.binSearch e fuel lo1 hi1 = some (lo2, hi2)) :
    (lo1 ≤ Expr.eval e lo1 ∧ Expr.eval e hi1 ≤ hi1) ∧
    (∀ lo hi : ℚ, lo ≤ Expr.eval e lo → Expr.eval e hi ≤ hi →
      ((Expr.eval e ((hi + lo) / 2) < (hi + lo) / 2 →
          lo ≤ Expr.eval e lo ∧ Expr.eval e ((hi + lo) / 2) ≤ (hi + lo) / 2) ∧
        (¬ Expr.eval e ((hi + lo) / 2) < (hi + lo) / 2 →
          (hi + lo) / 2 ≤ Expr.eval e ((hi + lo) / 2) ∧ Expr.eval e hi ≤ hi))) ∧
    (lo2 ≤ Expr.eval e lo2 ∧ Expr.eval e hi2 ≤ hi2) := by
  obtain ⟨he1, he2, hp1⟩ := Expr.bracketLo_spec e fuel (1 / 2) lo1 hl (by norm_num)
  obtain ⟨hf1, hf2⟩ := Expr.bracketHi_spec e fuel 1 hi1 hh (by norm_num)
  obtain ⟨_, _, _, h4, h5, _⟩ :=
    Expr.binSearch_spec e fuel lo1 hi1 lo2 hi2 hb he1 hf1 (by linarith)
  exact ⟨⟨he1, hf1⟩,
    fun lo hi hlo hhi =>
      ⟨fun hm => ⟨hlo, le_of_lt hm⟩, fun hm => ⟨le_of_not_lt hm, hhi⟩⟩,
    ⟨h4, h5⟩⟩

/-- C5 witness: the invariant conclusion at the concrete run of the
pipeline on `constant 2`. -/
theorem bisect_invariant_holds_witness :
    ((1 / 2 : ℚ) ≤ Expr.eval (Expr.constant 2) (1 / 2) ∧
        Expr.eval (Expr.constant 2) 2 ≤ 2) ∧
    (∀ lo hi : ℚ, lo ≤ Expr.eval (Expr.constant 2) lo →
      Expr.eval (Expr.constant 2) hi ≤ hi →
      ((Expr.eval (Expr.constant 2) ((hi + lo) / 2) < (hi + lo) / 2 →
          lo ≤ Expr.eval (Expr.constant 2) lo ∧
            Expr.eval (Expr.constant 2) ((hi + lo) / 2) ≤ (hi + lo) / 2) ∧
        (¬ Expr.eval (Expr.constant 2) ((hi + lo) / 2) < (hi + lo) / 2 →
          (hi + lo) / 2 ≤ Expr.eval (Expr.constant 2) ((hi + lo) / 2) ∧
            Expr.eval (Expr.constant 2) hi ≤ hi))) ∧
    ((8796093022205 / 4398046511104 : ℚ) ≤
        Expr.eval (Expr.constant 2) (8796093022205 / 4398046511104) ∧
      Expr.eval (Expr.constant 2) 2 ≤ 2) := by
  have hl : Expr.bracketLo (Expr.constant 2) 100 (1 / 2) = some (1 / 2) := by
    rw [Expr.bracketLo]; norm_num [Expr.eval_constant]
  have hh : Expr.bracketHi (Expr.constant 2) 100 1 = some 2 := by
    repeat (rw [Expr.bracketHi]; norm_num [Expr.eval_constant])
  have hb : Expr.binSearch (Expr.constant 2) 100 (1 / 2) 2
      = some (8796093022205 / 4398046511104, 2) := by
    repeat (rw [Expr.binSearch]; norm_num [Expr.eval_constant, Expr.tol])
  exact bisect_invariant_holds (Expr.constant 2) 100 (1 / 2) 2
    (8796093022205 / 4398046511104) 2 hl hh hb

/-- C1 (amended): for an expression whose residual `g x = eval e x - x` is
monotonically non-increasing, crosses zero exactly once for positive `x`,
and in addition is `K`-Lipschitz with `K * 1e-12 < 1e-6`, a terminating
run of `bisect` lands within `1e-6` of a fixed point. -/
theorem bisect_error_bound (e : Expr) (fuel : ℕ) (r K : ℚ)
    (_hmono : ∀ x y : ℚ, x ≤ y → Expr.eval e y - y ≤ Expr.eval e x - x)
    (_hcross : ∃! x : ℚ, 0 < x ∧ Expr.eval e x = x)
    (hlip : ∀ x y : ℚ, |(Expr.eval e x - x) - (Expr.eval e y - y)| ≤ K * |x - y|)
    (hK : K * Expr.tol < 1 / 1000000)
    (hr : Expr.bisect e fuel = some r) :
    |Expr.eval e r - r| < 1 / 1000000 := by
  obtain ⟨lo1, hi1, lo2, h1, h2, h3⟩ := Expr.bisect_pipeline e fuel r hr
  obtain ⟨he1, he2, hp1⟩ := Expr.bracketLo_spec e fuel (1 / 2) lo1 h1 (by norm_num)
  obtain ⟨hf1, hf2⟩ := Expr.bracketHi_spec e fuel 1 hi1 h2 (by norm_num)
  obtain ⟨_, _, hord2, h4, h5, hgap⟩ :=
    Expr.binSearch_spec e fuel lo1 hi1 lo2 r h3 he1 hf1 (by linarith)
  have hK0 : 0 ≤ K := by
    have h01 := hlip 0 1
    rw [show |(0 : ℚ) - 1| = 1 by norm_num, mul_one] at h01
    exact le_trans (abs_nonneg _) h01
  have hA : Expr.eval e lo2 - lo2 - (Expr.eval e r - r) ≤ K * (r - lo2) := by
    have hl2 := hlip lo2 r
    rw [abs_sub_comm lo2 r, abs_of_nonneg (by linarith : (0 : ℚ) ≤ r - lo2)] at hl2
    exact le_trans (le_abs_self _) hl2
  have hB : K * (r - lo2) ≤ K * Expr.tol := mul_le_mul_of_nonneg_left hgap hK0
  rw [abs_of_nonpos (by linarith : Expr.eval e r - r ≤ 0)]
  linarith

/-- C1 witness: the amended bound at the concrete run on `constant 1`,
whose residual is `1`-Lipschitz. -/
theorem bisect_error_bound_witness :
    Expr.bisect (Expr.constant 1) 100 = some 1 ∧
      |Expr.eval (Expr.constant 1) 1 - 1| < 1 / 1000000 := by
  have hLo : Expr.bracketLo (Expr.constant 1) 100 (1 / 2) = some (1 / 2) := by
    rw [Expr.bracketLo]; norm_num [Expr.eval_constant]
  have hHi : Expr.bracketHi (Expr.constant 1) 100 1 = some 1 := by
    rw [Expr.bracketHi]; norm_num [Expr.eval_constant]
  have hBin : Expr.binSearch (Expr.constant 1) 100 (1 / 2) 1
      = some (1099511627775 / 1099511627776, 1) := by
    repeat (rw [Expr.binSearch]; norm_num [Expr.eval_constant, Expr.tol])
  have hr : Expr.bisect (Expr.constant 1) 100 = some 1 := by
    simp only [Expr.bisect, hLo, hHi, hBin]
  refine ⟨hr, bisect_error_bound (Expr.constant 1) 100 1 1 ?_ ?_ ?_ ?_ hr⟩
  · intro x y hxy
    rw [Expr.eval_constant, Expr.eval_constant]; linarith
  · refine ⟨1, ⟨by norm_num, by rw [Expr.eval_constant]⟩, ?_⟩
    intro y hy
    rw [Expr.eval_constant] at hy
    exact hy.2.symm
  · intro x y
    rw [Expr.eval_constant, Expr.eval_constant]
    rw [show (1 : ℚ) - x - (1 - y) = -(x - y) by ring, abs_neg, one_mul]
  · rw [Expr.tol]; norm_num

/-- C1 counterexample: `steepExpr` satisfies the monotone single-crossing
precondition, yet the bisection result misses the fixed point by far more
than `1e-6`: the claimed tolerance does not hold for every admissible
expression. -/
theorem bisect_tolerance_counterexample :
    (∀ x y : ℚ, x ≤ y →
        Expr.eval steepExpr y - y ≤ Expr.eval steepExpr x - x) ∧
    (∃! x : ℚ, 0 < x ∧ Expr.eval steepExpr x = x) ∧
    Expr.bisect steepExpr 200 = some (295279001581 / 295147905179352825856) ∧
    ¬ |Expr.eval steepExpr (295279001581 / 295147905179352825856) -
        295279001581 / 295147905179352825856| < 1 / 1000000 := by
  refine ⟨?_, ?_, ?_, ?_⟩
  · intro x y hxy
    rw [eval_steepExpr, eval_steepExpr]; linarith
  · refine ⟨1 / 1000000001, ⟨by norm_num, by rw [eval_steepExpr]; norm_num⟩, ?_⟩
    intro y hy
    have := hy.2
    rw [eval_steepExpr] at this
    linarith
  · have hLo : Expr.bracketLo steepExpr 200 (1 / 2) = some (1 / 1073741824) := by
      repeat (rw [Expr.bracketLo]; norm_num [eval_steepExpr])
    have hHi : Expr.bracketHi steepExpr 200 1 = some 1 := by
      rw [Expr.bracketHi]; norm_num [eval_steepExpr]
    have hBin : Expr.binSearch steepExpr 200 (1 / 1073741824) 1 =
        some (1180042264501 / 1180591620717411303424,
          295279001581 / 295147905179352825856) := by
      repeat (rw [Expr.binSearch]; norm_num [eval_steepExpr, Expr.tol])
    simp only [Expr.bisect, hLo, hHi, hBin]
  · rw [not_lt, eval_steepExpr, le_abs]
    right
    norm_num

/-- C6: addition of expressions is an evaluation homomorphism. -/
theorem add_eval_hom (e1 e2 : Expr) (x : ℚ) :
    Expr.eval (Expr.add e1 e2) x = Expr.eval e1 x + Expr.eval e2 x :=
  Expr.eval_add e1 e2 x

/-- C7: scalar multiplication and division are evaluation homomorphisms
under the sign/nonzero preconditions, and both map structurally over the
fields of a `Sum` and distribute into both branches of a `Min`. -/
theorem mul_div_eval_hom (e : Expr) (s x : ℚ) :
    (0 ≤ s → Expr.eval (Expr.mulE e s) x = s * Expr.eval e x) ∧
    (s ≠ 0 → 0 ≤ s → Expr.eval (Expr.divE e s) x = Expr.eval e x / s) ∧
    (∀ one zero nl, Expr.mulE (Expr.Sum one zero nl) s
        = Expr.Sum (one * s) (zero * s) (Expr.mulList nl s)) ∧
    (∀ a b, Expr.mulE (Expr.Min a b) s = Expr.Min (Expr.mulE a s) (Expr.mulE b s)) ∧
    (∀ one zero nl, Expr.divE (Expr.Sum one zero nl) s
        = Expr.Sum (one / s) (zero / s) (Expr.divList nl s)) ∧
    (∀ a b, Expr.divE (Expr.Min a b) s = Expr.Min (Expr.divE a s) (Expr.divE b s)) :=
  ⟨fun hs => Expr.eval_mulE e s x hs,
   fun _ hs => Expr.eval_divE e s x hs,
   fun _ _ _ => by rw [Expr.mulE],
   fun _ _ => by rw [Expr.mulE],
   fun _ _ _ => by rw [Expr.divE],
   fun _ _ => by rw [Expr.divE]⟩

/-- C7 witness: the homomorphism identities at a concrete expression and
scalar. -/
theorem mul_div_eval_hom_witness :
    Expr.eval (Expr.mulE (Expr.Min (Expr.constant 1) (Expr.self_consistent 1)) 2) 3
        = 2 * Expr.eval (Expr.Min (Expr.constant 1) (Expr.self_consistent 1)) 3 ∧
    Expr.eval (Expr.divE (Expr.Min (Expr.constant 1) (Expr.self_consistent 1)) 2) 3
        = Expr.eval (Expr.Min (Expr.constant 1) (Expr.self_consistent 1)) 3 / 2 :=
  ⟨(mul_div_eval_hom (Expr.Min (Expr.constant 1) (Expr.self_consistent 1)) 2 3).1
      (by norm_num),
   (mul_div_eval_hom (Expr.Min (Expr.constant 1) (Expr.self_consistent 1)) 2 3).2.1
      (by norm_num) (by norm_num)⟩

/-- `dfs_b` at or past the goal: `constant 0`, memo untouched, for any
fuel. -/
theorem dfsB_goal (o : Opts) (fuel : ℕ) (m : Memo) (st : State) (d : ℕ)
    (h1 : st.dice = some d) (h2 : o.goal ≤ st.pos) :
    dfsB o fuel m st = .ok (Expr.constant 0, m) := by
  rw [dfsB, h1]
  simp [h2]

/-- C8: for every position at or past the goal, `dfs_a` returns exactly
`0`, before any memo lookup or expression construction: the result is
`ok (0, m)` for an arbitrary memo `m`, which is returned unchanged, and
no fuel is consumed. -/
theorem solved_value_goal_zero (o : Opts) (fuel : ℕ) (m : Memo) (st : State)
    (h1 : st.dice = none) (h2 : o.goal ≤ st.pos) :
    dfsA o fuel m st = .ok (0, m) := by
  rw [dfsA, h1]
  simp [h2]

/-- C8 witness: the boundary value at the concrete configuration, with
zero fuel and a nonempty memo that is ignored. -/
theorem solved_value_goal_zero_witness :
    (⟨3, 3, none⟩ : State).dice = none ∧ opts22.goal ≤ 3 ∧
      dfsA opts22 0 [(0, 5)] ⟨3, 3, none⟩ = .ok (0, [(0, 5)]) :=
  ⟨rfl, by norm_num [opts22],
    solved_value_goal_zero opts22 0 [(0, 5)] ⟨3, 3, none⟩ rfl (by norm_num [opts22])⟩

/-- C3: `dfs_b` at or past the goal returns `constant 0`; below the goal
it returns an expression that evaluates, at every `x`, to the minimum of
the continue value `eval E2 x / D + (x + 1) * ((D - 1) / D)` and the
banked stop value, where `E2` is the expression for the state advanced
again by the same die face. -/
theorem dfsB_equation (o : Opts) (fuel : ℕ) (m : Memo) (op p d : ℕ)
    (hD : 1 ≤ o.dice) :
    (o.goal ≤ p → dfsB o fuel m ⟨op, p, some d⟩ = .ok (Expr.constant 0, m)) ∧
    (p < o.goal → fuel ≠ 0 →
      ∀ v m₁ E2 m₂, dfsA o (fuel - 1) m ⟨p, p, none⟩ = .ok (v, m₁) →
        dfsB o (fuel - 1) m₁ ⟨op, (p + d) % u32size, some d⟩ = .ok (E2, m₂) →
        dfsB o fuel m ⟨op, p, some d⟩ =
          .ok (((E2.divE o.diceN).add
              (((Expr.self_consistent 1).add (Expr.constant 1)).mulE
                ((o.diceN - 1) / o.diceN))).min (Expr.constant v), m₂) ∧
        ∀ x : ℚ,
          Expr.eval (((E2.divE o.diceN).add
              (((Expr.self_consistent 1).add (Expr.constant 1)).mulE
                ((o.diceN - 1) / o.diceN))).min (Expr.constant v)) x
            = Min.min (Expr.eval E2 x / o.diceN + (x + 1) * ((o.diceN - 1) / o.diceN)) v) := by
  have hDq : (1 : ℚ) ≤ o.diceN := by
    rw [Opts.diceN]; exact_mod_cast hD
  have hDpos : (0 : ℚ) < o.diceN := by linarith
  have hcoef : (0 : ℚ) ≤ (o.diceN - 1) / o.diceN :=
    div_nonneg (by linarith) (le_of_lt hDpos)
  constructor
  · intro h2
    exact dfsB_goal o fuel m ⟨op, p, some d⟩ d rfl h2
  · intro hp hfuel v m₁ E2 m₂ hA hB
    constructor
    · rw [dfsB]
      have hnotle : ¬ o.goal ≤ p := not_le.2 hp
      simp only [State.stop, State.go_success, hnotle, if_false, hfuel, dif_neg, dite_false,
        hA, hB]
    · intro x
      rw [Expr.min, Expr.eval_min_def, Expr.eval_add, Expr.eval_divE E2 o.diceN x
          (le_of_lt hDpos), Expr.eval_mulE _ _ _ hcoef, Expr.eval_add,
        Expr.eval_self_consistent, Expr.eval_constant, Expr.eval_constant]
      ring_nf

/-- Helper: the resting value of position `1` in the `2, 2` configuration
is exactly `1`. -/
theorem dfsA_opts22_pos1 :
    dfsA opts22 97 [] ⟨1, 1, none⟩ = .ok (1, [(1, 1)]) := by
  have hG : opts22.goal = 2 := rfl
  have hd : opts22.dice = 2 := rfl
  have hDN : opts22.diceN = 2 := by norm_num [Opts.diceN, hd]
  have hb1 : dfsB opts22 96 [] ⟨1, 2, some 1⟩ = .ok (Expr.constant 0, []) :=
    dfsB_goal opts22 96 [] ⟨1, 2, some 1⟩ 1 rfl (by norm_num [hG])
  have hb2 : dfsB opts22 96 [] ⟨1, 3, some 2⟩ = .ok (Expr.constant 0, []) :=
    dfsB_goal opts22 96 [] ⟨1, 3, some 2⟩ 2 rfl (by norm_num [hG])
  have hloop : loopA opts22 (fun mm ss => dfsB opts22 96 mm ss) ⟨1, 1, none⟩ 1 2
      (Expr.Sum 0 1 []) [] = .ok (Expr.Sum 0 1 [], []) := by
    rw [loopA]
    norm_num [State.withDice, u32size, hb1, Expr.constant, Expr.divE, Expr.divList,
      Expr.add]
    rw [loopA]
    norm_num [State.withDice, u32size, hb2, Expr.constant, Expr.divE, Expr.divList,
      Expr.add]
    rw [loopA]
    norm_num
  have hLo : Expr.bracketLo (Expr.Sum 0 1 []) 96 (1 / 2) = some (1 / 2) := by
    rw [Expr.bracketLo]; norm_num [Expr.eval, Expr.evalList]
  have hHi : Expr.bracketHi (Expr.Sum 0 1 []) 96 1 = some 1 := by
    rw [Expr.bracketHi]; norm_num [Expr.eval, Expr.evalList]
  have hBin : Expr.binSearch (Expr.Sum 0 1 []) 96 (1 / 2) 1
      = some (1099511627775 / 1099511627776, 1) := by
    repeat (rw [Expr.binSearch]; norm_num [Expr.eval, Expr.evalList, Expr.tol])
  have hbis : Expr.bisect (Expr.Sum 0 1 []) 96 = some 1 := by
    simp only [Expr.bisect, hLo, hHi, hBin]
  rw [dfsA]
  norm_num [hG, hd, hDN, List.lookup, hloop, hbis, Expr.constant]

/-- C3 witness: the mid-roll equation at the concrete state
`(0, 1, die 1)` in the `2, 2` configuration, evaluated at `x = 0`. -/
theorem dfsB_equation_witness :
    dfsB opts22 98 [] ⟨0, 1, some 1⟩ =
      .ok ((((Expr.constant 0).divE opts22.diceN).add
          (((Expr.self_consistent 1).add (Expr.constant 1)).mulE
            ((opts22.diceN - 1) / opts22.diceN))).min (Expr.constant 1), [(1, 1)]) ∧
    Expr.eval ((((Expr.constant 0).divE opts22.diceN).add
          (((Expr.self_consistent 1).add (Expr.constant 1)).mulE
            ((opts22.diceN - 1) / opts22.diceN))).min (Expr.constant 1)) 0
      = Min.min (Expr.eval (Expr.constant 0) 0 / opts22.diceN +
          (0 + 1) * ((opts22.diceN - 1) / opts22.diceN)) 1 := by
  have h := (dfsB_equation opts22 98 [] 0 1 1 (by norm_num [opts22])).2
    (by norm_num [opts22]) (by norm_num) 1 [(1, 1)] (Expr.constant 0) [(1, 1)]
    dfsA_opts22_pos1
    (dfsB_goal opts22 97 [(1, 1)] ⟨0, (1 + 1) % u32size, some 1⟩ 1 rfl
      (by norm_num [opts22, u32size]))
  exact ⟨h.1, h.2 0⟩

/-- Helper: the mid-roll expression at state `(0, 1, die 1)` in the
`2, 2` configuration. -/
theorem dfsB_opts22_mid :
    dfsB opts22 98 [] ⟨0, 1, some 1⟩ =
      .ok (Expr.Min (Expr.Sum (1 / 2) (1 / 2) []) (Expr.Sum 0 1 []), [(1, 1)]) := by
  have hG : opts22.goal = 2 := rfl
  have hd : opts22.dice = 2 := rfl
  have hDN : opts22.diceN = 2 := by norm_num [Opts.diceN, hd]
  have hB := dfsB_goal opts22 97 [(1, 1)] ⟨0, 2, some 1⟩ 1 rfl (by norm_num [hG])
  norm_num at hB
  rw [dfsB]
  norm_num [hG, hDN, State.stop, State.go_success, u32size, dfsA_opts22_pos1, hB,
    Expr.min, Expr.add, Expr.divE, Expr.divList, Expr.mulE, Expr.mulList,
    Expr.constant, Expr.self_consistent]

/-- The result expression of `dfs_b` is always either a constant or a
`Min` node. -/
theorem dfsB_shape (o : Opts) (fuel : ℕ) (m : Memo) (st : State) (e : Expr)
    (m' : Memo) (h : dfsB o fuel m st = .ok (e, m')) :
    (∃ c, e = Expr.constant c) ∨ ∃ a b, e = Expr.Min a b := by
  rw [dfsB] at h
  split at h
  · exact absurd h (by simp)
  · split at h
    · left
      simp only [Res.ok.injEq, Prod.mk.injEq] at h
      exact ⟨0, h.1.symm⟩
    · split at h
      · exact absurd h (by simp)
      · split at h
        · split at h
          · exact absurd h (by simp)
          · split at h
            · right
              simp only [Expr.min, Res.ok.injEq, Prod.mk.injEq] at h
              exact ⟨_, _, h.1.symm⟩
            · exact absurd h (by simp)
            · exact absurd h (by simp)
            · exact absurd h (by simp)
        · exact absurd h (by simp)
        · exact absurd h (by simp)
        · exact absurd h (by simp)

/-- Processing die faces in the accumulation loop preserves the shape of
an affine accumulator with zero leading coefficient, whenever the
supplied equation builder only ever produces constants or `Min` nodes. -/
theorem loopA_shape (o : Opts) (f : Memo → State → Res (Expr × Memo))
    (hf : ∀ m st e m', f m st = .ok (e, m') →
      (∃ c, e = Expr.constant c) ∨ ∃ a b, e = Expr.Min a b) :
    ∀ cnt d st m z nl s' m',
      loopA o f st d cnt (Expr.Sum 0 z nl) m = .ok (s', m') →
      ∃ z' nl', s' = Expr.Sum 0 z' nl' := by
  intro cnt
  induction cnt using Nat.strong_induction_on with
  | _ cnt ih =>
    intro d st m z nl s' m' h
    rw [loopA] at h
    by_cases hc : cnt = 0
    · rw [dif_pos hc] at h
      simp only [Res.ok.injEq, Prod.mk.injEq] at h
      exact ⟨z, nl, h.1.symm⟩
    · rw [dif_neg hc] at h
      split at h
      · next e m₁ hres =>
        rcases hf _ _ _ _ hres with ⟨c, rfl⟩ | ⟨a, b, rfl⟩
        · have hstep : (Expr.Sum 0 z nl).add ((Expr.constant c).divE o.diceN)
              = Expr.Sum 0 (z + c / o.diceN) (nl ++ []) := by
            simp [Expr.constant, Expr.divE, Expr.divList, Expr.add]
          rw [hstep] at h
          exact ih (cnt - 1) (by omega) _ _ _ _ _ _ _ h
        · have hstep : (Expr.Sum 0 z nl).add ((Expr.Min a b).divE o.diceN)
              = Expr.Sum 0 z (nl ++ [Expr.Min (a.divE o.diceN) (b.divE o.diceN)]) := by
            simp [Expr.divE, Expr.add]
          rw [hstep] at h
          exact ih (cnt - 1) (by omega) _ _ _ _ _ _ _ h
      · exact absurd h (by simp)
      · exact absurd h (by simp)
      · exact absurd h (by simp)

/-- Helper: the full accumulation run of `dfs_a` at position `0` in the
`2, 2` configuration. -/
theorem loopA_opts22_run :
    loopA opts22 (fun mm ss => dfsB opts22 98 mm ss) ⟨0, 0, none⟩ 1 opts22.dice
        (Expr.constant 1) [] =
      .ok (Expr.Sum 0 1
          [Expr.Min (Expr.Sum (1 / 4) (1 / 4) []) (Expr.Sum 0 (1 / 2) [])],
        [(1, 1)]) := by
  have hd : opts22.dice = 2 := rfl
  have hDN : opts22.diceN = 2 := by norm_num [Opts.diceN, hd]
  have hB2 := dfsB_goal opts22 98 [(1, 1)] ⟨0, 2, some 2⟩ 2 rfl (by norm_num [opts22])
  norm_num at hB2
  rw [loopA]
  norm_num [hd, hDN, State.withDice, u32size, dfsB_opts22_mid, Expr.constant,
    Expr.add, Expr.divE, Expr.divList]
  rw [loopA]
  norm_num [hDN, State.withDice, u32size, hB2, Expr.constant, Expr.add, Expr.divE,
    Expr.divList]
  rw [loopA]
  norm_num

/-- C2 (amended): for every position below the goal, the expression
accumulated in `dfs_a` — `constant 1` plus the summed die-face
contributions — is an affine-plus-children `Sum` whose leading
coefficient `one` is `0` (no direct self-reference at the top level);
its value may still depend on the free variable through `Min` children,
so `bisect` genuinely searches rather than merely evaluating once. -/
theorem dfsA_accumulated_zero_coefficient (o : Opts) (fuel : ℕ) (m m' : Memo)
    (p : ℕ) (s : Expr) (_hp : p < o.goal)
    (h : loopA o (fun mm ss => dfsB o fuel mm ss) ⟨p, p, none⟩ 1 o.dice
      (Expr.constant 1) m = .ok (s, m')) :
    ∃ z nl, s = Expr.Sum 0 z nl := by
  have hc : Expr.constant 1 = Expr.Sum 0 1 [] := rfl
  rw [hc] at h
  exact loopA_shape o _ (fun mm st e mm' hh => dfsB_shape o fuel mm st e mm' hh)
    o.dice 1 ⟨p, p, none⟩ m 1 [] s m' h

/-- C2 witness: the zero-leading-coefficient conclusion at the concrete
accumulated expression for position `0` in the `2, 2` configuration. -/
theorem dfsA_accumulated_zero_coefficient_witness :
    (0 < opts22.goal) ∧
    ∃ z nl, Expr.Sum 0 1
        [Expr.Min (Expr.Sum (1 / 4) (1 / 4) []) (Expr.Sum 0 (1 / 2) [])]
      = Expr.Sum 0 z nl :=
  ⟨by norm_num [opts22],
    dfsA_accumulated_zero_coefficient opts22 98 [] [(1, 1)] 0 _
      (by norm_num [opts22]) loopA_opts22_run⟩

/-- C2 counterexample: at position `0` of the `2, 2` configuration the
expression accumulated in `dfs_a` does not evaluate to the same scalar
for every `x`: it takes value `5/4` at `x = 0` and `3/2` at `x = 1`, so
the die-face contributions do not all collapse to constants and `bisect`
does not merely evaluate the expression once. -/
theorem dfsA_accumulated_depends_on_x :
    (0 < opts22.goal) ∧
    loopA opts22 (fun mm ss => dfsB opts22 98 mm ss) ⟨0, 0, none⟩ 1 opts22.dice
        (Expr.constant 1) [] =
      .ok (Expr.Sum 0 1
          [Expr.Min (Expr.Sum (1 / 4) (1 / 4) []) (Expr.Sum 0 (1 / 2) [])],
        [(1, 1)]) ∧
    Expr.eval (Expr.Sum 0 1
        [Expr.Min (Expr.Sum (1 / 4) (1 / 4) []) (Expr.Sum 0 (1 / 2) [])]) 0
      ≠ Expr.eval (Expr.Sum 0 1
        [Expr.Min (Expr.Sum (1 / 4) (1 / 4) []) (Expr.Sum 0 (1 / 2) [])]) 1 :=
  ⟨by norm_num [opts22], loopA_opts22_run, by
    norm_num [Expr.eval, Expr.evalList]⟩

/-- The accumulation loop cannot exhaust the recursion fuel if none of
its die-face calls does. -/
theorem loopA_ne_outRec (o : Opts) (f : Memo → State → Res (Expr × Memo)) (st : State) :
    ∀ cnt d s m,
      (∀ mm dd, d ≤ dd → dd < d + cnt → f mm (st.withDice dd) ≠ .outRec) →
      loopA o f st d cnt s m ≠ .outRec := by
  intro cnt
  induction cnt using Nat.strong_induction_on with
  | _ cnt ih =>
    intro d s m hf
    rw [loopA]
    by_cases hc : cnt = 0
    · rw [dif_pos hc]; simp
    · rw [dif_neg hc]
      split
      · exact ih (cnt - 1) (by omega) (d + 1) _ _
          (fun mm dd h1 h2 => hf mm dd (by omega) (by omega))
      · simp
      · next hres => exact absurd hres (hf m d le_rfl (by omega))
      · simp

/-- C4 (amended): provided the configuration cannot overflow the `u32`
position arithmetic (`goal + dice ≤ 2^32`) and die faces lie in
`1..=dice`, the mutual recursion of `dfs_a` and `dfs_b` is well-founded
over the board-position measure: with any fuel exceeding twice the
remaining distance to the goal (plus one for a mid-roll state), neither
function can exhaust the recursion fuel, for every die-face count
`D ≥ 1`, every memo and every starting position. -/
theorem dfs_recursion_terminates (o : Opts) (_hD : 1 ≤ o.dice)
    (hNoWrap : o.goal + o.dice ≤ u32size) :
    (∀ fuel m p, 2 * (o.goal - p) < fuel →
        dfsA o fuel m ⟨p, p, none⟩ ≠ .outRec) ∧
    (∀ fuel m op p d, 1 ≤ d → d ≤ o.dice → 2 * (o.goal - p) + 1 < fuel →
        dfsB o fuel m ⟨op, p, some d⟩ ≠ .outRec) := by
  suffices H : ∀ k : ℕ,
      (∀ fuel m p, o.goal - p ≤ k → 2 * (o.goal - p) < fuel →
          dfsA o fuel m ⟨p, p, none⟩ ≠ .outRec) ∧
      (∀ fuel m op p d, o.goal - p ≤ k → 1 ≤ d → d ≤ o.dice →
          2 * (o.goal - p) + 1 < fuel →
          dfsB o fuel m ⟨op, p, some d⟩ ≠ .outRec) by
    exact ⟨fun fuel m p h => (H (o.goal - p)).1 fuel m p le_rfl h,
      fun fuel m op p d hd hdle h =>
        (H (o.goal - p)).2 fuel m op p d le_rfl hd hdle h⟩
  intro k
  induction k using Nat.strong_induction_on with
  | _ k ih =>
    have hA : ∀ fuel m p, o.goal - p ≤ k → 2 * (o.goal - p) < fuel →
        dfsA o fuel m ⟨p, p, none⟩ ≠ .outRec := by
      intro fuel m p hk hfuel
      rw [dfsA]
      dsimp only
      by_cases hgp : o.goal ≤ p
      · rw [if_pos hgp]; simp
      · rw [if_neg hgp]
        split
        · simp
        · rw [dif_neg (by omega : ¬ fuel = 0)]
          split
          · split <;> simp
          · simp
          · next hres =>
            refine absurd hres (loopA_ne_outRec o _ _ o.dice 1 _ m ?_)
            intro mm dd h1 h2
            have hstep : (⟨p, p, none⟩ : State).withDice dd = ⟨p, p + dd, some dd⟩ := by
              simp only [State.withDice]
              rw [Nat.mod_eq_of_lt (by omega)]
            rw [hstep]
            exact (ih (k - 1) (by omega)).2 (fuel - 1) mm p (p + dd) dd
              (by omega) h1 (by omega) (by omega)
          · simp
    refine ⟨hA, ?_⟩
    intro fuel m op p d hk hd hdle hfuel
    rw [dfsB]
    dsimp only
    by_cases hgp : o.goal ≤ p
    · rw [if_pos hgp]; simp
    · rw [if_neg hgp]
      rw [dif_neg (by omega : ¬ fuel = 0)]
      split
      · next stopV m₁ heq =>
        dsimp only [State.go_success]
        split
        · simp
        · simp
        · next hres2 =>
          rw [Nat.mod_eq_of_lt (by omega : p + d < u32size)] at hres2
          exact absurd hres2 ((ih (k - 1) (by omega)).2 (fuel - 1) m₁ op (p + d) d
            (by omega) hd hdle (by omega))
        · simp
      · simp
      · next hres =>
        have hstop : (⟨op, p, some d⟩ : State).stop = ⟨p, p, none⟩ := rfl
        rw [hstop] at hres
        exact absurd hres (hA (fuel - 1) m p hk (by omega))
      · simp

/-- C4 witness: termination of the recursion at the concrete
configuration, whose positions stay far below the `u32` modulus. -/
theorem dfs_recursion_terminates_witness :
    1 ≤ opts22.dice ∧ opts22.goal + opts22.dice ≤ u32size ∧
      2 * (opts22.goal - 0) < 100 ∧
      dfsA opts22 100 [] ⟨0, 0, none⟩ ≠ .outRec :=
  ⟨by norm_num [opts22], by norm_num [opts22, u32size], by norm_num [opts22],
    (dfs_recursion_terminates opts22 (by norm_num [opts22])
      (by norm_num [opts22, u32size])).1 100 [] 0 (by norm_num [opts22])⟩

/-- The two mid-roll states of the overflowing configuration cycle into
each other, so neither recursion ever completes, whatever the fuel and
memo. -/
theorem dfsB_wrap_cycle_not_ok :
    ∀ fuel,
      (∀ m x, dfsB optsWrap fuel m ⟨0, 2147483648, some 2147483648⟩ ≠ .ok x) ∧
      (∀ m x, dfsB optsWrap fuel m ⟨0, 0, some 2147483648⟩ ≠ .ok x) := by
  intro fuel
  induction fuel using Nat.strong_induction_on with
  | _ fuel ih =>
    constructor
    · intro m x hx
      rw [dfsB] at hx
      dsimp only at hx
      rw [if_neg (by norm_num [optsWrap])] at hx
      by_cases hf0 : fuel = 0
      · rw [dif_pos hf0] at hx; exact absurd hx (by simp)
      · rw [dif_neg hf0] at hx
        split at hx
        · dsimp only [State.go_success] at hx
          rw [show (2147483648 + 2147483648) % u32size = 0 by norm_num [u32size]] at hx
          split at hx
          · next heq2 =>
            exact absurd heq2 (fun hh =>
              (ih (fuel - 1) (by omega)).2 _ _ hh)
          · exact absurd hx (by simp)
          · exact absurd hx (by simp)
          · exact absurd hx (by simp)
        · exact absurd hx (by simp)
        · exact absurd hx (by simp)
        · exact absurd hx (by simp)
    · intro m x hx
      rw [dfsB] at hx
      dsimp only at hx
      rw [if_neg (by norm_num [optsWrap])] at hx
      by_cases hf0 : fuel = 0
      · rw [dif_pos hf0] at hx; exact absurd hx (by simp)
      · rw [dif_neg hf0] at hx
        split at hx
        · dsimp only [State.go_success] at hx
          rw [show (0 + 2147483648) % u32size = 2147483648 by norm_num [u32size]] at hx
          split at hx
          · next heq2 =>
            exact absurd heq2 (fun hh =>
              (ih (fuel - 1) (by omega)).1 _ _ hh)
          · exact absurd hx (by simp)
          · exact absurd hx (by simp)
          · exact absurd hx (by simp)
        · exact absurd hx (by simp)
        · exact absurd hx (by simp)
        · exact absurd hx (by simp)

/-- C4 counterexample: in the configuration `D = 2^31`,
`G = 2^32 - 1`, the mid-roll state at position `2^31` — reachable from
`solve 0` and `strategy 0 (2^31)` since `2^31` is a valid die face — sits
below the goal, yet its continuation call is made at position `0`, not at
a strictly larger position: the `u32` addition `2^31 + 2^31` wraps to
`0`.  The recursion cycles between positions `2^31` and `0` and `dfs_b`
never completes there, whatever the fuel and memo. -/
theorem dfs_recursion_wrap_counterexample :
    1 ≤ optsWrap.dice ∧
    1 ≤ (2147483648 : ℕ) ∧ (2147483648 : ℕ) ≤ optsWrap.dice ∧
    (2147483648 : ℕ) < optsWrap.goal ∧
    State.go_success ⟨0, 2147483648, some 2147483648⟩
      = some ⟨0, 0, some 2147483648⟩ ∧
    ¬ ∃ fuel m x, dfsB optsWrap fuel m ⟨0, 2147483648, some 2147483648⟩ = .ok x := by
  refine ⟨by norm_num [optsWrap], by norm_num, by norm_num [optsWrap],
    by norm_num [optsWrap], ?_, ?_⟩
  · rw [State.go_success]
    norm_num [u32size]
  · rintro ⟨fuel, m, x, hx⟩
    exact (dfsB_wrap_cycle_not_ok fuel).1 m x hx

/-- The accumulation loop cannot panic if none of its die-face calls
does. -/
theorem loopA_ne_assertFail (o : Opts) (f : Memo → State → Res (Expr × Memo))
    (st : State) :
    ∀ cnt d s m, (∀ mm dd, f mm (st.withDice dd) ≠ .assertFail) →
      loopA o f st d cnt s m ≠ .assertFail := by
  intro cnt
  induction cnt using Nat.strong_induction_on with
  | _ cnt ih =>
    intro d s m hf
    rw [loopA]
    by_cases hc : cnt = 0
    · rw [dif_pos hc]; simp
    · rw [dif_neg hc]
      split
      · exact ih (cnt - 1) (by omega) (d + 1) _ _ hf
      · next hres => exact absurd hres (hf m d)
      · simp
      · simp

/-- Neither `dfs_a` on a resting state nor `dfs_b` on a mid-roll state
can reach a failed assertion or unwrap, whatever the fuel and memo. -/
theorem dfs_no_assertFail (o : Opts) :
    ∀ fuel, (∀ m st, st.dice = none → dfsA o fuel m st ≠ .assertFail) ∧
      (∀ m st, st.dice ≠ none → dfsB o fuel m st ≠ .assertFail) := by
  intro fuel
  induction fuel using Nat.strong_induction_on with
  | _ fuel ih =>
    constructor
    · intro m st hdice
      rw [dfsA, hdice]
      dsimp only
      by_cases hgp : o.goal ≤ st.pos
      · rw [if_pos hgp]; simp
      · rw [if_neg hgp]
        split
        · simp
        · by_cases hf0 : fuel = 0
          · rw [dif_pos hf0]; simp
          · rw [dif_neg hf0]
            split
            · split <;> simp
            · next hres =>
              refine absurd hres (loopA_ne_assertFail o _ st o.dice 1 _ m ?_)
              intro mm dd
              exact (ih (fuel - 1) (by omega)).2 mm (st.withDice dd)
                (by simp [State.withDice])
            · simp
            · simp
    · intro m st hdice
      obtain ⟨d, hd⟩ := Option.ne_none_iff_exists'.1 hdice
      rw [dfsB, hd]
      dsimp only
      by_cases hgp : o.goal ≤ st.pos
      · rw [if_pos hgp]; simp
      · rw [if_neg hgp]
        by_cases hf0 : fuel = 0
        · rw [dif_pos hf0]; simp
        · rw [dif_neg hf0]
          split
          · next stopV m₁ heq =>
            rw [State.go_success, hd]
            dsimp only
            split
            · simp
            · next hres2 =>
              exact absurd hres2 ((ih (fuel - 1) (by omega)).2 m₁ _ (by simp))
            · simp
            · simp
          · next hres =>
            exact absurd hres ((ih (fuel - 1) (by omega)).1 m st.stop
              (by simp [State.stop]))
          · simp
          · simp

/-- C10: for every configuration with `D ≥ 1`, every position `n` and
every die face `d`, the public entry points `solve` and `strategy` never
reach a panic: the assertions of `dfs_a` and `dfs_b` always hold at
entry, and the `unwrap` in `go_success` only ever runs on a state with a
pending die face. -/
theorem entry_points_no_panic (o : Opts) (_hD : 1 ≤ o.dice) (fuel n d : ℕ) :
    solve o fuel n ≠ .assertFail ∧ strategy o fuel n d ≠ .assertFail := by
  constructor
  · rw [solve]
    split
    · simp
    · next hres =>
      exact absurd hres ((dfs_no_assertFail o fuel).1 [] _ rfl)
    · simp
    · simp
  · rw [strategy]
    split
    · next stopS m₁ hres =>
      split
      · split <;> simp
      · next hres2 =>
        exact absurd hres2 ((dfs_no_assertFail o fuel).2 m₁ _
          (by simp [State.withDice]))
      · simp
      · simp
    · next hres =>
      exact absurd hres ((dfs_no_assertFail o fuel).1 [] _ rfl)
    · simp
    · simp

/-- C10 witness: no panic for the entry points at a concrete
configuration, position and die face. -/
theorem entry_points_no_panic_witness :
    1 ≤ opts22.dice ∧ solve opts22 5 0 ≠ .assertFail ∧
      strategy opts22 5 0 1 ≠ .assertFail :=
  ⟨by norm_num [opts22],
    (entry_points_no_panic opts22 (by norm_num [opts22]) 5 0 1).1,
    (entry_points_no_panic opts22 (by norm_num [opts22]) 5 0 1).2⟩

end CantStop
